import Mathlib

/-!
Verification of the pyLIQTR lazy composition/decomposition core.

This file gives a shallow embedding of the algorithmic core of the
repository:

* `Op`, the atomic operations manipulated by the comparators (a cirq
  operation is opaque to the comparator except for its `qubits` attribute
  and its equality relation);
* the streaming commutative comparator
  `TestHelpers.generator_commutative_equality` from
  `src/pyLIQTR/utils/tests/test_helpers.py` (modelled by `commStep`,
  `commLoop` and `generator_commutative_equality` below);
* the strict comparator `TestHelpers.generator_equality` from the same
  file (modelled by `generator_equality`);
* the `Repeat` meta-bloq from `src/pyLIQTR/utils/repeat.py` (modelled by
  `SubInput`, `mkRepeat`, `RepeatB`, `decompose_once`, `decompose` and
  `decompose_from_registers`);
* the `Deferred` and `Cached` meta-bloqs from
  `src/pyLIQTR/utils/deferred.py` (modelled by `DeferredB`, `CachedB`,
  their constructors, and `CachedB.compose` over an explicit singleton
  cache state).

Python generators are modelled as eagerly computed lists; mutable object
state (`Repeat._cached`, `Cached.SINGLETON_CACHE`) is threaded
explicitly; exceptions are modelled with `Except`/`Option`.  Where a
theorem speaks about how often a generator is invoked, the corresponding
step function also returns an invocation count.
-/

namespace PyLIQTR
/-- An atomic operation: a gate identifier together with the list of
qubits it touches.  This mirrors the interface the comparators use on a
cirq operation: the `qubits` attribute and structural equality. -/
structure Op where
  gate : Nat
  qubits : List Nat
deriving DecidableEq, Repr

/-- `any(i in cmp.qubits for i in qubits)` from the comparator, with
`qubits = g.qubits` the qubits of the candidate gate and `cmp = c` an
operation pulled from the backlog or the reference generator. -/
def overlaps (g c : Op) : Bool :=
  g.qubits.any (fun i => c.qubits.contains i)

/-- One iteration of the candidate loop of
`generator_commutative_equality`: given the current backlog and the
unread part of the reference generator, try to match the candidate gate
`g`.  `none` models the `return False` paths (an overlapping but unequal
gate in the backlog, an overlapping but unequal gate pulled from the
generator, or exhaustion of the generator without an overlapping gate);
`some (b, r)` is the updated backlog and unread reference. -/
def commStep (backlog rest : List Op) (g : Op) : Option (List Op × List Op) :=
  match backlog.find? (fun c => overlaps g c) with
  | some c =>
    -- first backlogged gate sharing a qubit with `g`; `backlog.remove`
    -- drops the first list element equal to it
    if c = g then some (backlog.erase c, rest) else none
  | none =>
    -- traverse the generator; non-overlapping gates are appended to the
    -- backlog, the first overlapping gate must equal `g`
    match rest.dropWhile (fun c => !overlaps g c) with
    | [] => none
    | c :: post =>
      if c = g then
        some (backlog ++ rest.takeWhile (fun c => !overlaps g c), post)
      else none

/-- The candidate loop of `generator_commutative_equality`: process each
candidate gate in order, returning `False` as soon as a step fails and
`True` when the candidate is exhausted. -/
def commLoop : List Op → List Op → List Op → Bool
  | _, _, [] => true
  | backlog, rest, g :: gs =>
    match commStep backlog rest g with
    | none => false
    | some (b, r) => commLoop b r gs

/-- `TestHelpers.generator_commutative_equality(circuit, bloq)`:
`circuit` is the reference sequence, `bloq` the candidate sequence.  The
function first asserts that the candidate decomposition is non-empty
(`assert TestHelpers.non_empty(generator_decompose(bloq))`); a failing
assertion is modelled as `none`.  Otherwise it runs the backlog matching
loop starting from an empty backlog. -/
def generator_commutative_equality (circuit bloq : List Op) : Option Bool :=
  if bloq.isEmpty then none
  else some (commLoop [] circuit bloq)

/-- `TestHelpers.generator_equality(circuit, bloq)`: asserts the
candidate decomposition non-empty (modelled as `none`), then compares
`zip(generator_decompose(bloq), generator_decompose(circuit))` pairwise;
`zip` stops at the shorter sequence. -/
def generator_equality (circuit bloq : List Op) : Option Bool :=
  if bloq.isEmpty then none
  else some ((List.zipWith (fun x y => decide (x = y)) bloq circuit).all (fun b => b))

/-- One commuting transposition: swap two adjacent operations whose
resource (qubit) sets are disjoint. -/
inductive SwapStep : List Op → List Op → Prop
  | swap (xs ys : List Op) (a b : Op) (h : overlaps a b = false) :
      SwapStep (xs ++ a :: b :: ys) (xs ++ b :: a :: ys)

/-- Commutative equivalence of operation sequences: the reflexive
transitive closure of adjacent disjoint transpositions. -/
def CommEquiv : List Op → List Op → Prop :=
  Relation.ReflTransGen SwapStep

/-! ## The `Repeat` meta-bloq (`src/pyLIQTR/utils/repeat.py`) -/

/-- An element yielded by a `Repeat` decomposition: either an atomic
operation (cirq gate applied to qubits, or a gate from a circuit
moment), or a whole cirq circuit (what `Bloq.to_cirq_circuit` returns in
`_qualtran_bloq_decomp`, which yields it as a single element). -/
inductive Item where
  | op (o : Op)
  | circuit (c : List Op)
deriving DecidableEq, Repr

/-- The possible runtime types of the `subbloq` argument of
`Repeat.__init__`.  A `qualtran.Bloq` is opaque to `Repeat` except for
the circuit produced by `to_cirq_circuit`, which the `bloq` constructor
carries directly; `other` stands for any object that is none of the
three recognised kinds. -/
inductive SubInput where
  | bloq (c : List Op)
  | gate (g : Nat)
  | circuit (moments : List (List Op))
  | other (x : Nat)
deriving DecidableEq, Repr

def SubInput.isOther : SubInput → Bool
  | .other _ => true
  | _ => false

/-- The dispatched decomposition strategy stored by a successfully
constructed `Repeat` (the constructor assigns `self._decompose` to one
of the three decomposer methods). -/
inductive SubBloq where
  | qualtranBloq (c : List Op)
  | cirqGate (g : Nat)
  | cirqCircuit (moments : List (List Op))
deriving DecidableEq, Repr

/-- The state of a constructed `Repeat` bloq: the dispatched subbloq,
the stored positional arguments, `n_repetitions` (an unchecked Python
`int`, hence `Int`), the `caching` flag and the `_cached` slot. -/
structure RepeatB where
  subbloq : SubBloq
  args : List Nat
  n_repetitions : Int
  caching : Bool
  cached : Option (List Item)
deriving DecidableEq, Repr

/-- `Repeat.__init__`: stores the configuration and dispatches on the
runtime type of `subbloq`; an unrecognised type raises `TypeError`
immediately, and nothing checks `n_repetitions`. -/
def mkRepeat (subbloq : SubInput) (args : List Nat) (n_repetitions : Int)
    (caching : Bool) : Except String RepeatB :=
  match subbloq with
  | .bloq c =>
    .ok { subbloq := .qualtranBloq c, args := args,
          n_repetitions := n_repetitions, caching := caching, cached := none }
  | .gate g =>
    .ok { subbloq := .cirqGate g, args := args,
          n_repetitions := n_repetitions, caching := caching, cached := none }
  | .circuit m =>
    .ok { subbloq := .cirqCircuit m, args := args,
          n_repetitions := n_repetitions, caching := caching, cached := none }
  | .other _ =>
    .error "TypeError: subbloq is not a qualtran.Bloq, cirq.Gate or cirq.Circuit"

/-- The dispatched `self._decompose()` call: `_qualtran_bloq_decomp`
yields the single circuit from `to_cirq_circuit`; `_cirq_gate_decomp`
yields the single operation `subbloq(*args)`; `_cirq_circuit_decomp`
yields the gates of each moment in order. -/
def decompose_dispatch (r : RepeatB) : List Item :=
  match r.subbloq with
  | .qualtranBloq c => [Item.circuit c]
  | .cirqGate g => [Item.op ⟨g, r.args⟩]
  | .cirqCircuit moments => moments.flatten.map Item.op

/-- `Repeat.decompose_once()`: with caching enabled, the first call
materialises `tuple(self._decompose())` into `self._cached` and replays
it afterwards; without caching every call re-runs the dispatched
decomposer.  Returns the yielded sequence, the updated object state and
the number of `_decompose` invocations performed (0 or 1). -/
def decompose_once (r : RepeatB) : List Item × RepeatB × Nat :=
  if r.caching then
    match r.cached with
    | none =>
      let d := decompose_dispatch r
      (d, { r with cached := some d }, 1)
    | some d => (d, r, 0)
  else
    (decompose_dispatch r, r, 1)

/-- The loop body of `Repeat.decompose()`: `n` consecutive
`decompose_once()` calls, threading the object state and accumulating
the yielded elements and the `_decompose` invocation count. -/
def decomposeAux : Nat → RepeatB → List Item × RepeatB × Nat
  | 0, r => ([], r, 0)
  | n + 1, r =>
    let s := decompose_once r
    let t := decomposeAux n s.2.1
    (s.1 ++ t.1, t.2.1, s.2.2 + t.2.2)

/-- `Repeat.decompose()`: `for _ in range(self.n_repetitions): yield
from self.decompose_once()` (`range` of a non-positive int is empty). -/
def RepeatB.decompose (r : RepeatB) : List Item × RepeatB × Nat :=
  decomposeAux r.n_repetitions.toNat r

/-- Iterated `decompose_once()` calls on the same object (as a caller
would perform), returning the list of yielded sequences, the final
state and the total `_decompose` invocation count. -/
def onceIter : Nat → RepeatB → List (List Item) × RepeatB × Nat
  | 0, r => ([], r, 0)
  | k + 1, r =>
    let s := decompose_once r
    let t := onceIter k s.2.1
    (s.1 :: t.1, t.2.1, s.2.2 + t.2.2)

/-- The loop of `Repeat.decompose_from_registers`: `ops` is a single
iterator over the subbloq decomposition (with caching it is
`iter(list(...))`, without it is the generator itself — either way one
iterator created before the loop), and each `yield from ops` drains
whatever is left of it, so after the first pass the iterator is
exhausted and later passes contribute nothing. -/
def yieldFromRange : Nat → List Item → List Item
  | 0, _ => []
  | n + 1, ops => ops ++ yieldFromRange n []

/-- `Repeat.decompose_from_registers(...)`: `sub` is the sequence
produced by `self.subbloq.decompose_from_registers(...)`. -/
def decompose_from_registers (r : RepeatB) (sub : List Item) : List Item :=
  yieldFromRange r.n_repetitions.toNat sub

/-! ## The `Deferred` and `Cached` meta-bloqs
(`src/pyLIQTR/utils/deferred.py`) -/

/-- State of a `Deferred` bloq: the stored generator and the `args` /
`kwargs` slots (`None` until a collaborator binds them). -/
structure DeferredB where
  subbloq_gen : List Nat → List (String × Nat) → Nat
  args : Option (List Nat)
  kwargs : Option (List (String × Nat))

/-- `Deferred.__init__(subbloq_gen, *args, caching=False, **kwargs)`:
the constructor receives positional and keyword arguments (and a
`caching` flag) but stores none of them — `self.args` and `self.kwargs`
are set to `None`. -/
def mkDeferred (gen : List Nat → List (String × Nat) → Nat)
    (args : List Nat) (kwargs : List (String × Nat)) (caching : Bool) :
    DeferredB :=
  { subbloq_gen := gen, args := none, kwargs := none }

/-- `Deferred.compose()`: `self.subbloq_gen(*self.args, **self.kwargs)`.
Unpacking `*None` raises `TypeError` before the generator is called. -/
def DeferredB.compose (d : DeferredB) : Except String Nat :=
  match d.args, d.kwargs with
  | some a, some k => .ok (d.subbloq_gen a k)
  | _, _ => .error "TypeError: argument after * must be an iterable, not NoneType"

/-- State of a `Cached` bloq: tag, generator and the unbound `args` /
`kwargs` slots. -/
structure CachedB where
  tag : Nat
  subbloq_gen : List Nat → List (String × Nat) → Nat
  args : Option (List Nat)
  kwargs : Option (List (String × Nat))

/-- `Cached.__init__(tag, subbloq_gen, *args, **kwargs)`: stores the tag
and generator; `self.args` and `self.kwargs` are set to `None`. -/
def mkCached (tag : Nat) (gen : List Nat → List (String × Nat) → Nat)
    (args : List Nat) (kwargs : List (String × Nat)) : CachedB :=
  { tag := tag, subbloq_gen := gen, args := none, kwargs := none }

/-- `Cached.compose()` over an explicit `SINGLETON_CACHE` (an
association list keyed by tag): a hit yields the stored entry without
touching the generator; a miss invokes the generator and stores the
result.  Returns the yielded value (or the `TypeError` from unpacking
unbound arguments), the updated cache, and the number of generator
invocations performed (0 or 1). -/
def CachedB.compose (c : CachedB) (cache : List (Nat × Nat)) :
    Except String Nat × List (Nat × Nat) × Nat :=
  match cache.lookup c.tag with
  | some v => (.ok v, cache, 0)
  | none =>
    match c.args, c.kwargs with
    | some a, some k =>
      let bloq := c.subbloq_gen a k
      (.ok bloq, (c.tag, bloq) :: cache, 1)
    | _, _ =>
      (.error "TypeError: argument after * must be an iterable, not NoneType",
        cache, 0)

/-- A sequence of `compose()` calls on `Cached` instances sharing the
process-wide cache, in order: the list of results, the final cache, and
the total number of generator invocations. -/
def composeRun : List CachedB → List (Nat × Nat) →
    List (Except String Nat) × List (Nat × Nat) × Nat
  | [], cache => ([], cache, 0)
  | c :: cs, cache =>
    let s := c.compose cache
    let t := composeRun cs s.2.1
    (s.1 :: t.1, t.2.1, s.2.2 + t.2.2)

/-! ## Theorems: comparator analysis, `Repeat`/`Cached` behaviour, and
the claim theorems -/

theorem overlaps_true_iff {g c : Op} :
    overlaps g c = true ↔ ∃ i, i ∈ g.qubits ∧ i ∈ c.qubits := by
  simp [overlaps, List.any_eq_true, List.contains, List.elem_iff]

theorem overlaps_comm (g c : Op) : overlaps g c = overlaps c g := by
  rcases h1 : overlaps g c with _ | _ <;> rcases h2 : overlaps c g with _ | _
  · rfl
  · rcases overlaps_true_iff.mp h2 with ⟨i, hi1, hi2⟩
    have : overlaps g c = true := overlaps_true_iff.mpr ⟨i, hi2, hi1⟩
    rw [h1] at this; exact absurd this (by simp)
  · rcases overlaps_true_iff.mp h1 with ⟨i, hi1, hi2⟩
    have : overlaps c g = true := overlaps_true_iff.mpr ⟨i, hi2, hi1⟩
    rw [h2] at this; exact absurd this (by simp)
  · rfl

theorem overlaps_self {g : Op} (h : g.qubits ≠ []) : overlaps g g = true := by
  rcases hq : g.qubits with _ | ⟨i, t⟩
  · exact absurd hq h
  · exact overlaps_true_iff.mpr ⟨i, by rw [hq]; exact List.mem_cons_self i t,
      by rw [hq]; exact List.mem_cons_self i t⟩

theorem swapStep_symm {l m : List Op} (h : SwapStep l m) : SwapStep m l := by
  cases h with
  | swap xs ys a b hab =>
    exact SwapStep.swap xs ys b a (by rw [overlaps_comm]; exact hab)

theorem commEquiv_refl (l : List Op) : CommEquiv l l :=
  Relation.ReflTransGen.refl

theorem commEquiv_symm {l m : List Op} (h : CommEquiv l m) : CommEquiv m l := by
  induction h with
  | refl => exact Relation.ReflTransGen.refl
  | tail _ hstep ih => exact Relation.ReflTransGen.head (swapStep_symm hstep) ih

theorem commEquiv_length {l m : List Op} (h : CommEquiv l m) :
    l.length = m.length := by
  induction h with
  | refl => rfl
  | tail _ hstep ih =>
    cases hstep with
    | swap xs ys a b hab => simp [List.length_append] at ih ⊢; omega

/-- Characterisation of `find?` succeeding: the list splits at the first
element satisfying the predicate. -/
theorem find?_eq_some_split {p : Op → Bool} {l : List Op} {c : Op}
    (h : l.find? p = some c) :
    ∃ l1 l2, l = l1 ++ c :: l2 ∧ (∀ x ∈ l1, p x = false) ∧ p c = true := by
  induction l with
  | nil => simp [List.find?] at h
  | cons x t ih =>
    rcases hx : p x with _ | _
    · rw [List.find?_cons, hx] at h
      obtain ⟨l1, l2, h1, h2, h3⟩ := ih h
      exact ⟨x :: l1, l2, by rw [h1]; rfl, by
        intro y hy
        rcases List.mem_cons.mp hy with rfl | hy
        · exact hx
        · exact h2 y hy, h3⟩
    · rw [List.find?_cons, hx] at h
      injection h with h
      exact ⟨[], t, by simp [h], by intro y hy; simp at hy, by rw [← h]; exact hx⟩

theorem find?_append_cons {p : Op → Bool} {l1 l2 : List Op} {c : Op}
    (h1 : ∀ x ∈ l1, p x = false) (h2 : p c = true) :
    (l1 ++ c :: l2).find? p = some c := by
  induction l1 with
  | nil => simp [List.find?_cons, h2]
  | cons x t ih =>
    have hx : p x = false := h1 x (List.mem_cons_self x t)
    rw [List.cons_append, List.find?_cons, hx]
    exact ih (fun y hy => h1 y (List.mem_cons_of_mem x hy))

theorem dropWhile_append_all {p : Op → Bool} {as : List Op} (bs : List Op)
    (h : ∀ x ∈ as, p x = true) :
    (as ++ bs).dropWhile p = bs.dropWhile p := by
  induction as with
  | nil => rfl
  | cons x t ih =>
    have hx : p x = true := h x (List.mem_cons_self x t)
    rw [List.cons_append, List.dropWhile_cons, hx]
    exact ih (fun y hy => h y (List.mem_cons_of_mem x hy))

theorem takeWhile_append_all {p : Op → Bool} {as : List Op} (bs : List Op)
    (h : ∀ x ∈ as, p x = true) :
    (as ++ bs).takeWhile p = as ++ bs.takeWhile p := by
  induction as with
  | nil => rfl
  | cons x t ih =>
    have hx : p x = true := h x (List.mem_cons_self x t)
    rw [List.cons_append, List.takeWhile_cons, hx]
    rw [ih (fun y hy => h y (List.mem_cons_of_mem x hy))]
    rfl

theorem dropWhile_cons_neg {p : Op → Bool} {l : List Op} {c : Op}
    (h : p c = false) : (c :: l).dropWhile p = c :: l := by
  rw [List.dropWhile_cons, h]; rfl

theorem takeWhile_cons_neg {p : Op → Bool} {l : List Op} {c : Op}
    (h : p c = false) : (c :: l).takeWhile p = [] := by
  rw [List.takeWhile_cons, h]; rfl

theorem dropWhile_eq_nil_all {p : Op → Bool} {l : List Op}
    (h : ∀ x ∈ l, p x = true) : l.dropWhile p = [] := by
  induction l with
  | nil => rfl
  | cons x t ih =>
    rw [List.dropWhile_cons, h x (List.mem_cons_self x t)]
    exact ih (fun y hy => h y (List.mem_cons_of_mem x hy))

theorem dropWhile_head_neg {p : Op → Bool} {l post : List Op} {c : Op}
    (h : l.dropWhile p = c :: post) : p c = false := by
  induction l with
  | nil => simp [List.dropWhile] at h
  | cons x t ih =>
    rcases hx : p x with _ | _
    · rw [List.dropWhile_cons, hx] at h
      injection h with h1 _
      rw [← h1]; exact hx
    · rw [List.dropWhile_cons, hx] at h
      exact ih h

theorem mem_takeWhile_pos {p : Op → Bool} {l : List Op} {x : Op}
    (h : x ∈ l.takeWhile p) : p x = true := by
  induction l with
  | nil => simp [List.takeWhile] at h
  | cons y t ih =>
    rcases hy : p y with _ | _
    · rw [List.takeWhile_cons, hy] at h
      simp at h
    · rw [List.takeWhile_cons, hy] at h
      rcases List.mem_cons.mp h with rfl | h
      · exact hy
      · exact ih h

theorem swapStep_inv {l m : List Op} (h : SwapStep l m) :
    ∃ xs ys p q, overlaps p q = false ∧
      l = xs ++ p :: q :: ys ∧ m = xs ++ q :: p :: ys := by
  cases h with
  | swap xs ys a b hab => exact ⟨xs, ys, a, b, hab, rfl, rfl⟩

/-- If the first occurrence of `g` in a sequence is preceded only by
operations disjoint from `g`, one commuting transposition preserves that
shape, and removing `g` commutes with the transposition. -/
theorem swapStep_mid {u v z : List Op} {g : Op}
    (hu : ∀ x ∈ u, overlaps g x = false) (h : SwapStep (u ++ g :: v) z) :
    ∃ u' v', z = u' ++ g :: v' ∧ (∀ x ∈ u', overlaps g x = false) ∧
      (u' ++ v' = u ++ v ∨ SwapStep (u ++ v) (u' ++ v')) := by
  obtain ⟨xs, ys, p, q, hpq, heq, hz⟩ := swapStep_inv h
  rcases List.append_eq_append_iff.mp heq with ⟨t, hxs, htv⟩ | ⟨t, hu2, htv⟩
  · -- the swap site starts at or after the position of `g`
    cases t with
    | nil =>
      -- `g` itself is the left element of the swapped pair
      injection htv with h1 h2
      subst h1
      refine ⟨u ++ [q], ys, ?_, ?_, Or.inl ?_⟩
      · rw [hz, hxs]; simp
      · intro x hx
        rcases List.mem_append.mp hx with hx | hx
        · exact hu x hx
        · have : x = q := by simpa using hx
          subst this; exact hpq
      · rw [h2]; simp
    | cons g' t' =>
      -- the swap happens strictly inside `v`
      injection htv with h1 h2
      subst h1
      refine ⟨u, t' ++ q :: p :: ys, ?_, hu, Or.inr ?_⟩
      · rw [hz, hxs]; simp
      · rw [h2]
        have hs := SwapStep.swap (u ++ t') ys p q hpq
        rw [List.append_assoc] at hs
        simpa using hs
  · -- the swap site starts inside `u` (or exactly at `g`)
    cases t with
    | nil =>
      -- degenerate: the swap pair starts exactly at `g`
      simp only [List.nil_append] at htv
      injection htv with h1 h2
      subst h1
      refine ⟨u ++ [q], ys, ?_, ?_, Or.inl ?_⟩
      · rw [hz, hu2]; simp
      · intro x hx
        rcases List.mem_append.mp hx with hx | hx
        · exact hu x hx
        · have : x = q := by simpa using hx
          subst this; exact hpq
      · rw [← h2]; simp
    | cons x1 t1 =>
      injection htv with h1 h2
      subst h1
      cases t1 with
      | nil =>
        -- `g` is the right element of the swapped pair
        injection h2 with h3 h4
        subst h3
        refine ⟨xs, p :: v, ?_, ?_, Or.inl ?_⟩
        · rw [hz, h4]
        · intro x hx
          exact hu x (by rw [hu2]; exact List.mem_append_left _ hx)
        · rw [hu2]; simp
      | cons x2 t2 =>
        -- the swap happens strictly inside `u`
        injection h2 with h3 h4
        subst h3
        refine ⟨xs ++ q :: p :: t2, v, ?_, ?_, Or.inr ?_⟩
        · rw [hz, h4]; simp
        · intro x hx
          apply hu
          rw [hu2]
          simp only [List.mem_append, List.mem_cons] at hx ⊢
          tauto
        · rw [hu2]
          have hs := SwapStep.swap xs (t2 ++ v) p q hpq
          simpa using hs

/-- Extraction: if `g :: gs` is commutatively equivalent to `z`, then `z`
consists of a block of operations disjoint from `g`, then `g`, and the
remainder is equivalent to `gs`. -/
theorem commEquiv_extract {g : Op} {gs z : List Op}
    (h : CommEquiv (g :: gs) z) :
    ∃ u v, z = u ++ g :: v ∧ (∀ x ∈ u, overlaps g x = false) ∧
      CommEquiv gs (u ++ v) := by
  induction h with
  | refl => exact ⟨[], gs, rfl, by intro x hx; simp at hx, commEquiv_refl gs⟩
  | tail _ hstep ih =>
    obtain ⟨u, v, rfl, hu, hgs⟩ := ih
    obtain ⟨u', v', hzz, hu', hor⟩ := swapStep_mid hu hstep
    refine ⟨u', v', hzz, hu', ?_⟩
    rcases hor with he | hs
    · rw [he]; exact hgs
    · exact Relation.ReflTransGen.tail hgs hs

theorem commLoop_cons (backlog rest : List Op) (g : Op) (gs : List Op) :
    commLoop backlog rest (g :: gs) =
      match commStep backlog rest g with
      | none => false
      | some (b, r) => commLoop b r gs := rfl

/-- Soundness of the backlog loop on commutatively equivalent sequences:
if the remaining candidate is equivalent to the backlog followed by the
unread reference, and every operation in play touches at least one
qubit, the loop succeeds. -/
theorem commLoop_true_of_equiv :
    ∀ (cand backlog rest : List Op),
      (∀ x ∈ backlog ++ rest, x.qubits ≠ []) →
      CommEquiv cand (backlog ++ rest) →
      commLoop backlog rest cand = true := by
  intro cand
  induction cand with
  | nil => intro backlog rest _ _; rfl
  | cons g gs ih =>
    intro backlog rest hne hequiv
    obtain ⟨u, v, heq, hu, hrec⟩ := commEquiv_extract hequiv
    have hgmem : g ∈ backlog ++ rest := by rw [heq]; simp
    have hgq : overlaps g g = true := overlaps_self (hne g hgmem)
    rcases List.append_eq_append_iff.mp heq with ⟨as, huq, hrest⟩ | ⟨cs, hbk, hcs⟩
    · -- the matching occurrence of `g` lies in the unread reference
      subst huq
      subst hrest
      have hfind : backlog.find? (fun c => overlaps g c) = none :=
        List.find?_eq_none.mpr (fun x hx => by
          rw [hu x (List.mem_append_left as hx)]; simp)
      have hdisj : ∀ x ∈ as, (fun c => !overlaps g c) x = true := by
        intro x hx
        have := hu x (List.mem_append_right backlog hx)
        simp [this]
      have hdrop : (as ++ g :: v).dropWhile (fun c => !overlaps g c) = g :: v := by
        rw [dropWhile_append_all (g :: v) hdisj]
        exact dropWhile_cons_neg (by rw [hgq]; rfl)
      have htake : (as ++ g :: v).takeWhile (fun c => !overlaps g c) = as := by
        rw [takeWhile_append_all (g :: v) hdisj]
        rw [takeWhile_cons_neg (by rw [hgq]; rfl)]
        simp
      have hstep : commStep backlog (as ++ g :: v) g = some (backlog ++ as, v) := by
        unfold commStep
        rw [hfind, hdrop, htake]
        simp
      rw [commLoop_cons, hstep]
      apply ih
      · intro x hx
        apply hne
        simp only [List.mem_append] at hx ⊢
        tauto
      · have : (backlog ++ as) ++ v = backlog ++ as ++ v := rfl
        rw [this]
        exact hrec
    · -- the matching occurrence of `g` lies in the backlog (or is the
      -- head of the unread reference)
      cases cs with
      | nil =>
        rw [List.append_nil] at hbk
        subst hbk
        simp only [List.nil_append] at hcs
        subst hcs
        have hfind : backlog.find? (fun c => overlaps g c) = none :=
          List.find?_eq_none.mpr (fun x hx => by simp [hu x hx])
        have hdrop : (g :: v).dropWhile (fun c => !overlaps g c) = g :: v :=
          dropWhile_cons_neg (by rw [hgq]; rfl)
        have htake : (g :: v).takeWhile (fun c => !overlaps g c) = [] :=
          takeWhile_cons_neg (by rw [hgq]; rfl)
        have hstep : commStep backlog (g :: v) g = some (backlog, v) := by
          unfold commStep
          rw [hfind, hdrop, htake]
          simp
        rw [commLoop_cons, hstep]
        apply ih
        · intro x hx
          apply hne
          simp only [List.mem_append, List.mem_cons] at hx ⊢
          tauto
        · exact hrec
      | cons c0 cs' =>
        injection hcs with hc0 hv
        subst hc0
        subst hbk
        have hgu : g ∉ u := by
          intro hx
          have := hu g hx
          rw [hgq] at this
          exact absurd this (by simp)
        have hfind : (u ++ g :: cs').find? (fun c => overlaps g c) = some g :=
          find?_append_cons (fun x hx => hu x hx) hgq
        have herase : (u ++ g :: cs').erase g = u ++ cs' := by
          rw [List.erase_append_right _ hgu, List.erase_cons_head]
        have hstep : commStep (u ++ g :: cs') rest g = some (u ++ cs', rest) := by
          unfold commStep
          rw [hfind]
          simp [herase]
        rw [commLoop_cons, hstep]
        apply ih
        · intro x hx
          apply hne
          simp only [List.mem_append, List.mem_cons] at hx ⊢
          tauto
        · have hv2 : v = cs' ++ rest := hv
          rw [List.append_assoc, ← hv2]
          exact hrec

/-- Inversion of a successful comparator step: either the candidate gate
was matched against the backlog, or against the unread reference with
the skipped prefix appended to the backlog. -/
theorem commStep_some_inv {backlog rest : List Op} {g : Op} {b r : List Op}
    (h : commStep backlog rest g = some (b, r)) :
    (∃ l1 l2, backlog = l1 ++ g :: l2 ∧ (∀ x ∈ l1, overlaps g x = false) ∧
       overlaps g g = true ∧ b = l1 ++ l2 ∧ r = rest) ∨
    ((∀ x ∈ backlog, overlaps g x = false) ∧
       ∃ pre post, rest = pre ++ g :: post ∧ (∀ x ∈ pre, overlaps g x = false) ∧
         overlaps g g = true ∧ b = backlog ++ pre ∧ r = post) := by
  unfold commStep at h
  split at h
  next c hfind =>
    split at h
    next hcg =>
      simp only [Option.some.injEq, Prod.mk.injEq] at h
      obtain ⟨hb, hr⟩ := h
      obtain ⟨l1, l2, hsplit, hl1, hc⟩ := find?_eq_some_split hfind
      rw [hcg] at hsplit hc
      have hgg : overlaps g g = true := by simpa using hc
      refine Or.inl ⟨l1, l2, hsplit, ?_, hgg, ?_, hr.symm⟩
      · intro x hx
        have := hl1 x hx
        simpa using this
      · have hgl1 : g ∉ l1 := by
          intro hx
          have h1 := hl1 g hx
          simp only at h1
          rw [h1] at hgg
          exact absurd hgg (by simp)
        rw [← hb, hcg, hsplit, List.erase_append_right _ hgl1,
          List.erase_cons_head]
    next hcg => exact absurd h (by simp)
  next hfind =>
    split at h
    next hdw => exact absurd h (by simp)
    next c post hdw =>
      split at h
      next hcg =>
        simp only [Option.some.injEq, Prod.mk.injEq] at h
        obtain ⟨hb, hr⟩ := h
        refine Or.inr ⟨?_, rest.takeWhile (fun c => !overlaps g c), post,
          ?_, ?_, ?_, hb.symm, hr.symm⟩
        · intro x hx
          have := List.find?_eq_none.mp hfind x hx
          simpa using this
        · conv_lhs =>
            rw [← List.takeWhile_append_dropWhile (fun c => !overlaps g c) rest]
          rw [hdw, hcg]
        · intro x hx
          have := mem_takeWhile_pos hx
          simpa using this
        · have := dropWhile_head_neg hdw
          rw [hcg] at this
          simpa using this
      next hcg => exact absurd h (by simp)

/-- A successful step only shrinks the multiset of pending reference
operations: the new state is a sublist of the old, and every pending
operation other than the matched one stays pending. -/
theorem commStep_state {backlog rest : List Op} {g : Op} {b r : List Op}
    (h : commStep backlog rest g = some (b, r)) :
    (b ++ r).Sublist (backlog ++ rest) ∧
      (∀ a, a ≠ g → a ∈ backlog ++ rest → a ∈ b ++ r) := by
  rcases commStep_some_inv h with
    ⟨l1, l2, hbk, -, -, hb, hr⟩ | ⟨-, pre, post, hrest, -, -, hb, hr⟩
  · rw [hbk, hb, hr]
    constructor
    · exact List.Sublist.append_right
        (List.Sublist.append_left (List.sublist_cons_self g l2) l1) rest
    · intro a hag ha
      simp only [List.mem_append, List.mem_cons] at ha ⊢
      tauto
  · rw [hrest, hb, hr]
    constructor
    · have h1 : (pre ++ post).Sublist (pre ++ g :: post) :=
        List.Sublist.append_left (List.sublist_cons_self g post) pre
      have h2 := List.Sublist.append_left h1 backlog
      rw [← List.append_assoc] at h2
      exact h2
    · intro a hag ha
      simp only [List.mem_append, List.mem_cons] at ha ⊢
      tauto

/-- If the candidate gate overlaps nothing pending, the step fails:
the backlog scan finds nothing and the reference generator is exhausted
without finding an intersecting gate. -/
theorem commStep_none_of_noOverlap {backlog rest : List Op} {o : Op}
    (h : ∀ x ∈ backlog ++ rest, overlaps o x = false) :
    commStep backlog rest o = none := by
  unfold commStep
  have hfind : backlog.find? (fun c => overlaps o c) = none :=
    List.find?_eq_none.mpr (fun x hx => by
      simp [h x (List.mem_append_left rest hx)])
  have hdw : rest.dropWhile (fun c => !overlaps o c) = [] :=
    dropWhile_eq_nil_all (fun x hx => by
      simp [h x (List.mem_append_right backlog hx)])
  rw [hfind, hdw]

/-- Part 3 of the comparator analysis: a candidate containing a gate
that overlaps no pending reference gate makes the loop return `False`. -/
theorem commLoop_false_noMatch (o : Op) :
    ∀ (q1 backlog rest q2 : List Op),
      (∀ x ∈ backlog ++ rest, overlaps o x = false) →
      commLoop backlog rest (q1 ++ o :: q2) = false := by
  intro q1
  induction q1 with
  | nil =>
    intro backlog rest q2 h
    rw [List.nil_append, commLoop_cons, commStep_none_of_noOverlap h]
  | cons g q1' ih =>
    intro backlog rest q2 h
    rw [List.cons_append, commLoop_cons]
    rcases hstep : commStep backlog rest g with _ | ⟨b, r⟩
    · rfl
    · have hsub := (commStep_state hstep).1
      exact ih b r q2 (fun x hx => h x (hsub.subset hx))

/-- In a duplicate-free context, `b` cannot occur before `a` if `a`
occurs before `b`. -/
theorem not_pair_sublist {a b : Op} (hab : a ≠ b) :
    ∀ (r1 r2 r3 : List Op), (r1 ++ a :: r2 ++ b :: r3).Nodup →
      ¬ ([b, a].Sublist (r1 ++ a :: r2 ++ b :: r3)) := by
  intro r1
  induction r1 with
  | nil =>
    intro r2 r3 hnd h
    rw [List.nil_append] at hnd h
    cases h with
    | cons _ h' =>
      have ha : a ∈ r2 ++ b :: r3 := h'.subset (by simp)
      exact (List.nodup_cons.mp hnd).1 ha
    | cons₂ h' => exact hab rfl
  | cons x t ih =>
    intro r2 r3 hnd h
    rw [List.cons_append] at hnd h
    cases h with
    | cons _ h' => exact ih r2 r3 (List.nodup_cons.mp hnd).2 h'
    | cons₂ h' =>
      have hb : b ∈ t ++ a :: r2 ++ b :: r3 := by simp
      exact (List.nodup_cons.mp hnd).1 hb

/-- Part 2 of the comparator analysis: if the reference has `a` strictly
before `b`, they share a qubit, and the candidate reaches `b` before any
occurrence of `a`, the loop returns `False`. -/
theorem commLoop_false_reorder (R : List Op) (a b : Op)
    (hov : overlaps b a = true) (hab : a ≠ b)
    (hba : ¬ ([b, a].Sublist R)) :
    ∀ (c1 backlog rest c2 : List Op),
      (backlog ++ rest).Sublist R → a ∈ backlog ++ rest → a ∉ c1 →
      commLoop backlog rest (c1 ++ b :: c2) = false := by
  intro c1
  induction c1 with
  | nil =>
    intro backlog rest c2 hsub ha _
    rw [List.nil_append, commLoop_cons]
    rcases hstep : commStep backlog rest b with _ | ⟨b', r'⟩
    · rfl
    · exfalso
      rcases commStep_some_inv hstep with
        ⟨l1, l2, hbk, hl1, _, _, _⟩ | ⟨hbkall, pre, post, hrest, hpre, _, _, _⟩
      · -- the loop matched `b` from the backlog, so `b` was pending
        -- before `a`: contradicts the reference order
        apply hba
        have hal2 : a ∈ l2 ++ rest := by
          rw [hbk] at ha
          simp only [List.mem_append, List.mem_cons] at ha
          rcases ha with (ha | rfl | ha) | ha
          · exact absurd (hl1 a ha) (by simp [hov])
          · exact absurd rfl hab
          · simp [ha]
          · simp [ha]
        have h1 : [b, a].Sublist (b :: (l2 ++ rest)) :=
          List.cons_sublist_cons.mpr (List.singleton_sublist.mpr hal2)
        have h2 : (b :: (l2 ++ rest)).Sublist (l1 ++ (b :: (l2 ++ rest))) :=
          List.sublist_append_right l1 _
        have h3 : l1 ++ (b :: (l2 ++ rest)) = (l1 ++ b :: l2) ++ rest := by
          simp
        rw [h3] at h2
        rw [← hbk] at h2
        exact (h1.trans h2).trans hsub
      · -- the loop matched `b` from the unread reference past `a`
        apply hba
        have hanb : a ∉ backlog := by
          intro hx
          exact absurd (hbkall a hx) (by simp [hov])
        have hapost : a ∈ post := by
          have har : a ∈ rest := by
            rcases List.mem_append.mp ha with h | h
            · exact absurd h hanb
            · exact h
          rw [hrest] at har
          simp only [List.mem_append, List.mem_cons] at har
          rcases har with h | rfl | h
          · exact absurd (hpre a h) (by simp [hov])
          · exact absurd rfl hab
          · exact h
        have h1 : [b, a].Sublist (b :: post) :=
          List.cons_sublist_cons.mpr (List.singleton_sublist.mpr hapost)
        have h2 : (b :: post).Sublist rest := by
          rw [hrest]
          exact List.sublist_append_right pre _
        have h3 : rest.Sublist (backlog ++ rest) :=
          List.sublist_append_right backlog rest
        exact ((h1.trans h2).trans h3).trans hsub
  | cons g c1' ih =>
    intro backlog rest c2 hsub ha hac1
    rw [List.cons_append, commLoop_cons]
    rcases hstep : commStep backlog rest g with _ | ⟨b', r'⟩
    · rfl
    · obtain ⟨hs, hm⟩ := commStep_state hstep
      have hag : a ≠ g := fun h => hac1 (h ▸ List.mem_cons_self g c1')
      exact ih b' r' c2 (hs.trans hsub) (hm a hag ha)
        (fun h => hac1 (List.mem_cons_of_mem g h))

theorem decompose_dispatch_cached (r : RepeatB) (d : List Item) :
    decompose_dispatch { r with cached := some d } = decompose_dispatch r := by
  unfold decompose_dispatch
  rfl

theorem decompose_once_cached_hit {r : RepeatB} {d : List Item}
    (hc : r.caching = true) (hm : r.cached = some d) :
    decompose_once r = (d, r, 0) := by
  unfold decompose_once
  rw [hc, hm]
  simp

theorem decompose_once_cache_none {r : RepeatB}
    (hc : r.caching = true) (hm : r.cached = none) :
    decompose_once r = (decompose_dispatch r,
      { r with cached := some (decompose_dispatch r) }, 1) := by
  unfold decompose_once
  rw [hc, hm]
  simp

theorem decompose_once_no_cache {r : RepeatB} (hc : r.caching = false) :
    decompose_once r = (decompose_dispatch r, r, 1) := by
  unfold decompose_once
  rw [hc]
  simp

/-- A second `decompose_once()` call yields the same sequence as the
first, whatever the caching mode. -/
theorem decompose_once_fst_fix (r : RepeatB) :
    (decompose_once (decompose_once r).2.1).1 = (decompose_once r).1 := by
  rcases hc : r.caching with _ | _
  · rw [decompose_once_no_cache hc, decompose_once_no_cache hc]
  · rcases hm : r.cached with _ | d
    · have h1 : (decompose_once r).2.1 =
          { r with cached := some (decompose_dispatch r) } := by
        rw [decompose_once_cache_none hc hm]
      have h0 : (decompose_once r).1 = decompose_dispatch r := by
        rw [decompose_once_cache_none hc hm]
      have h2 := decompose_once_cached_hit
        (r := { r with cached := some (decompose_dispatch r) })
        (d := decompose_dispatch r) hc rfl
      rw [h1, h0, h2]
    · rw [decompose_once_cached_hit hc hm, decompose_once_cached_hit hc hm]

theorem onceIter_saturated {r : RepeatB} {d : List Item}
    (hc : r.caching = true) (hm : r.cached = some d) :
    ∀ k, onceIter k r = (List.replicate k d, r, 0) := by
  intro k
  induction k with
  | zero => rfl
  | succ k ih =>
    unfold onceIter
    rw [decompose_once_cached_hit hc hm]
    simp only
    rw [ih]
    simp [List.replicate_succ]

theorem decomposeAux_saturated {r : RepeatB} {d : List Item}
    (hc : r.caching = true) (hm : r.cached = some d) :
    ∀ n, decomposeAux n r = ((List.replicate n d).flatten, r, 0) := by
  intro n
  induction n with
  | zero => rfl
  | succ n ih =>
    unfold decomposeAux
    rw [decompose_once_cached_hit hc hm]
    simp only
    rw [ih]
    simp [List.replicate_succ]

/-- `decompose()` is the concatenation of `n` copies of the (stable)
`decompose_once()` output. -/
theorem decomposeAux_replicate (n : Nat) (r : RepeatB) :
    (decomposeAux n r).1 = (List.replicate n (decompose_once r).1).flatten := by
  induction n generalizing r with
  | zero => rfl
  | succ n ih =>
    unfold decomposeAux
    simp only [List.replicate_succ, List.flatten_cons]
    rw [ih (decompose_once r).2.1, decompose_once_fst_fix]

theorem yieldFromRange_nil : ∀ n, yieldFromRange n [] = [] := by
  intro n
  induction n with
  | zero => rfl
  | succ n ih => unfold yieldFromRange; rw [ih]; rfl

theorem composeRun_hit (T : Nat) (v : Nat) :
    ∀ (cs : List CachedB) (cache : List (Nat × Nat)),
      (∀ c ∈ cs, c.tag = T) → cache.lookup T = some v →
      composeRun cs cache = (List.replicate cs.length (Except.ok v), cache, 0) := by
  intro cs
  induction cs with
  | nil => intro cache _ _; rfl
  | cons c cs' ih =>
    intro cache hall hv
    have hct : c.tag = T := hall c (List.mem_cons_self c cs')
    have hcomp : c.compose cache = (Except.ok v, cache, 0) := by
      unfold CachedB.compose
      rw [hct, hv]
    unfold composeRun
    rw [hcomp]
    simp only
    rw [ih cache (fun x hx => hall x (List.mem_cons_of_mem c hx)) hv]
    rfl

theorem isEmpty_append_cons (l1 : List Op) (x : Op) (l2 : List Op) :
    (l1 ++ x :: l2).isEmpty = false := by
  cases l1 <;> rfl

/-- Pointwise characterisation of the zipped `all` comparison used by
the strict comparator: it checks equality only up to the shorter
length. -/
theorem zipWith_all_eq :
    ∀ (l1 l2 : List Op),
      (((List.zipWith (fun x y => decide (x = y)) l1 l2).all (fun b => b)) = true) ↔
        ∀ i (h1 : i < l1.length) (h2 : i < l2.length),
          l1.get ⟨i, h1⟩ = l2.get ⟨i, h2⟩ := by
  intro l1
  induction l1 with
  | nil =>
    intro l2
    constructor
    · intro _ i h1 _
      exact absurd h1 (by simp)
    · intro _
      simp [List.zipWith]
  | cons x t ih =>
    intro l2
    cases l2 with
    | nil =>
      constructor
      · intro _ i _ h2
        exact absurd h2 (by simp)
      · intro _
        simp [List.zipWith]
    | cons y t2 =>
      constructor
      · intro h i h1 h2
        rw [List.zipWith_cons_cons, List.all_cons, Bool.and_eq_true] at h
        rcases i with _ | i
        · simpa using of_decide_eq_true h.1
        · exact (ih t2).mp h.2 i (Nat.lt_of_succ_lt_succ h1)
            (Nat.lt_of_succ_lt_succ h2)
      · intro h
        rw [List.zipWith_cons_cons, List.all_cons, Bool.and_eq_true]
        refine ⟨decide_eq_true (h 0 (by simp) (by simp)), ?_⟩
        exact (ih t2).mpr (fun i h1 h2 =>
          h (i + 1) (Nat.succ_lt_succ h1) (Nat.succ_lt_succ h2))

theorem decompose_nonpos {r : RepeatB} (h : r.n_repetitions.toNat = 0) :
    (r.decompose).1 = [] := by
  unfold RepeatB.decompose
  rw [h]
  rfl

/-- With caching enabled, every `decompose_once()` output equals the
first one. -/
theorem onceIter_outputs (r : RepeatB) (hc : r.caching = true) :
    ∀ (k : Nat), ∀ o ∈ (onceIter k r).1, o = (decompose_once r).1 := by
  rcases hm : r.cached with _ | d
  · intro k
    rcases k with _ | k
    · intro o ho
      simp [onceIter] at ho
    · intro o ho
      rw [decompose_once_cache_none hc hm]
      unfold onceIter at ho
      rw [decompose_once_cache_none hc hm] at ho
      simp only at ho
      rw [onceIter_saturated (r := { r with cached := some (decompose_dispatch r) })
        (d := decompose_dispatch r) hc rfl] at ho
      simp only [List.mem_cons] at ho
      rcases ho with rfl | ho
      · rfl
      · exact List.eq_of_mem_replicate ho
  · intro k o ho
    rw [onceIter_saturated hc hm] at ho
    rw [decompose_once_cached_hit hc hm]
    exact List.eq_of_mem_replicate ho

/-- With caching enabled, at most one dispatched `_decompose`
invocation happens across any number of `decompose_once()` calls. -/
theorem onceIter_count_le (r : RepeatB) (hc : r.caching = true) :
    ∀ (k : Nat), (onceIter k r).2.2 ≤ 1 := by
  rcases hm : r.cached with _ | d
  · intro k
    rcases k with _ | k
    · simp [onceIter]
    · unfold onceIter
      rw [decompose_once_cache_none hc hm]
      simp only
      rw [onceIter_saturated (r := { r with cached := some (decompose_dispatch r) })
        (d := decompose_dispatch r) hc rfl]
      simp
  · intro k
    rw [onceIter_saturated hc hm]
    simp

/-- With caching enabled, at most one dispatched `_decompose`
invocation happens inside a whole `decompose()` call. -/
theorem decomposeAux_count_le (r : RepeatB) (hc : r.caching = true) :
    ∀ (n : Nat), (decomposeAux n r).2.2 ≤ 1 := by
  rcases hm : r.cached with _ | d
  · intro n
    rcases n with _ | n
    · simp [decomposeAux]
    · unfold decomposeAux
      rw [decompose_once_cache_none hc hm]
      simp only
      rw [decomposeAux_saturated (r := { r with cached := some (decompose_dispatch r) })
        (d := decompose_dispatch r) hc rfl]
      simp
  · intro n
    rw [decomposeAux_saturated hc hm]
    simp

/-- C1, counterexample to the claim as stated: for an operation with an
empty resource set, even the identity permutation (trivially a
permutation in which every transposed adjacent pair touches disjoint
resource sets) makes the commutative comparator return `false`, because
`any(i in cmp.qubits for i in qubits)` is vacuously false, the reference
generator is drained into the backlog, and no match is ever found. -/
theorem claim_C1_counterexample :
    CommEquiv [⟨7, []⟩] [⟨7, []⟩] ∧
    generator_commutative_equality [⟨7, []⟩] [⟨7, []⟩] = some false :=
  ⟨commEquiv_refl _, by decide⟩

/-- C1 (amended): restricted to operations that touch at least one
resource, (i) for a nonempty reference `R` and any candidate obtained
from `R` by transposing adjacent operations with disjoint resource sets,
the commutative comparator returns `true`; (ii) if a duplicate-free
reference contains `a` strictly before `b`, `a` and `b` share a
resource, and the candidate reaches `b` before any occurrence of `a`,
the comparator returns `false`; (iii) if some candidate operation
intersects no reference operation, so that the reference generator is
exhausted before a resource-intersecting match is found, the comparator
returns `false`. -/
theorem claim_C1_theorem :
    (∀ R P : List Op, R ≠ [] → (∀ o ∈ R, o.qubits ≠ []) → CommEquiv R P →
      generator_commutative_equality R P = some true) ∧
    (∀ (r1 r2 r3 c1 c2 : List Op) (a b : Op),
      (r1 ++ a :: r2 ++ b :: r3).Nodup → overlaps b a = true → a ∉ c1 →
      generator_commutative_equality (r1 ++ a :: r2 ++ b :: r3)
        (c1 ++ b :: c2) = some false) ∧
    (∀ (R q1 q2 : List Op) (o : Op), (∀ x ∈ R, overlaps o x = false) →
      generator_commutative_equality R (q1 ++ o :: q2) = some false) := by
  refine ⟨?_, ?_, ?_⟩
  · intro R P hR hq h
    cases hP : P with
    | nil =>
      exfalso
      have hlen := commEquiv_length h
      rw [hP] at hlen
      exact hR (List.length_eq_zero.mp (by simpa using hlen))
    | cons p ps =>
      subst hP
      unfold generator_commutative_equality
      rw [show ((p :: ps : List Op).isEmpty) = false from rfl]
      simp only [Bool.false_eq_true, if_false]
      refine congrArg some (commLoop_true_of_equiv (p :: ps) [] R ?_ ?_)
      · intro x hx
        exact hq x (by simpa using hx)
      · rw [List.nil_append]
        exact commEquiv_symm h
  · intro r1 r2 r3 c1 c2 a b hnd hov hac1
    have hab : a ≠ b := by
      intro he
      have hd := (List.nodup_append.mp hnd).2.2
      exact hd (a := a) (by simp) (by rw [he]; simp)
    have hba := not_pair_sublist hab r1 r2 r3 hnd
    have hfalse := commLoop_false_reorder (r1 ++ a :: r2 ++ b :: r3) a b hov hab
      hba c1 [] (r1 ++ a :: r2 ++ b :: r3) c2
      (by rw [List.nil_append]) (by simp) hac1
    unfold generator_commutative_equality
    rw [isEmpty_append_cons]
    simp only [Bool.false_eq_true, if_false]
    exact congrArg some hfalse
  · intro R q1 q2 o hdisj
    have hfalse := commLoop_false_noMatch o q1 [] R q2
      (fun x hx => hdisj x (by simpa using hx))
    unfold generator_commutative_equality
    rw [isEmpty_append_cons]
    simp only [Bool.false_eq_true, if_false]
    exact congrArg some hfalse

/-- C1, witness: (i) swapping two disjoint gates compares `true`;
(ii) swapping two overlapping distinct gates compares `false`;
(iii) a candidate gate overlapping nothing in the reference compares
`false`. -/
theorem claim_C1_witness :
    generator_commutative_equality
      [⟨0, [0]⟩, ⟨1, [1]⟩] [⟨1, [1]⟩, ⟨0, [0]⟩] = some true ∧
    generator_commutative_equality
      [⟨0, [0]⟩, ⟨1, [0]⟩] [⟨1, [0]⟩, ⟨0, [0]⟩] = some false ∧
    generator_commutative_equality [⟨0, [0]⟩] [⟨2, [5]⟩] = some false := by
  refine ⟨?_, ?_, ?_⟩
  · exact claim_C1_theorem.1 _ _ (by decide) (by decide)
      (Relation.ReflTransGen.single
        (SwapStep.swap [] [] ⟨0, [0]⟩ ⟨1, [1]⟩ (by decide)))
  · exact claim_C1_theorem.2.1 [] [] [] [] [⟨0, [0]⟩] ⟨0, [0]⟩ ⟨1, [0]⟩
      (by decide) (by decide) (by decide)
  · exact claim_C1_theorem.2.2 [⟨0, [0]⟩] [] [] ⟨2, [5]⟩ (by decide)

/-- C2: `Repeat.decompose()` yields exactly the concatenation of
`n_repetitions` consecutive `decompose_once()` outputs (which are all
equal to the first), and zero repetitions yield the empty sequence. -/
theorem claim_C2_theorem :
    (∀ r : RepeatB, (r.decompose).1 =
      (List.replicate r.n_repetitions.toNat (decompose_once r).1).flatten) ∧
    (∀ r : RepeatB, r.n_repetitions = 0 → (r.decompose).1 = []) := by
  constructor
  · intro r
    exact decomposeAux_replicate r.n_repetitions.toNat r
  · intro r h
    exact decompose_nonpos (by rw [h]; rfl)

/-- C2, witness: a `Repeat` with zero repetitions decomposes to the
empty sequence. -/
theorem claim_C2_witness :
    ((RepeatB.mk (.cirqGate 3) [5] 0 false none).decompose).1 = [] :=
  claim_C2_theorem.2 _ rfl

/-- C3: for a fixed tag `T`, across any nonempty sequence of `compose()`
calls on argument-bound `Cached` instances sharing `T`, starting from a
cache with no entry for `T`, the underlying generator is invoked exactly
once, every call yields the stored cache entry, and the cache holds that
entry afterwards. -/
theorem claim_C3_theorem (T : Nat) (cs : List CachedB)
    (cache : List (Nat × Nat)) (hne : cs ≠ [])
    (hall : ∀ c ∈ cs, c.tag = T ∧ c.args.isSome ∧ c.kwargs.isSome)
    (hmiss : cache.lookup T = none) :
    ∃ v, (composeRun cs cache).2.2 = 1 ∧
      (∀ res ∈ (composeRun cs cache).1, res = Except.ok v) ∧
      ((composeRun cs cache).2.1).lookup T = some v := by
  rcases cs with _ | ⟨c, cs'⟩
  · exact absurd rfl hne
  · obtain ⟨hct, hargs, hkw⟩ := hall c (List.mem_cons_self c cs')
    obtain ⟨a, ha⟩ := Option.isSome_iff_exists.mp hargs
    obtain ⟨k, hk⟩ := Option.isSome_iff_exists.mp hkw
    have hcomp : c.compose cache =
        (Except.ok (c.subbloq_gen a k), (T, c.subbloq_gen a k) :: cache, 1) := by
      unfold CachedB.compose
      rw [hct, hmiss, ha, hk]
    have hv : ((T, c.subbloq_gen a k) :: cache).lookup T =
        some (c.subbloq_gen a k) := by
      simp [List.lookup]
    have hrun := composeRun_hit T (c.subbloq_gen a k) cs'
      ((T, c.subbloq_gen a k) :: cache)
      (fun x hx => (hall x (List.mem_cons_of_mem c hx)).1) hv
    refine ⟨c.subbloq_gen a k, ?_, ?_, ?_⟩
    · unfold composeRun
      rw [hcomp]
      simp only
      rw [hrun]
      rfl
    · intro res hres
      unfold composeRun at hres
      rw [hcomp] at hres
      simp only at hres
      rw [hrun] at hres
      simp only [List.mem_cons] at hres
      rcases hres with rfl | hres
      · rfl
      · exact List.eq_of_mem_replicate hres
    · unfold composeRun
      rw [hcomp]
      simp only
      rw [hrun]
      exact hv

/-- C3, witness: two unbound-then-bound instances sharing tag 0, run
from the empty cache. -/
theorem claim_C3_witness :
    ∃ v, (composeRun [⟨0, fun _ _ => 7, some [], some []⟩,
        ⟨0, fun _ _ => 7, some [], some []⟩] []).2.2 = 1 ∧
      (∀ res ∈ (composeRun [⟨0, fun _ _ => 7, some [], some []⟩,
        ⟨0, fun _ _ => 7, some [], some []⟩] []).1, res = Except.ok v) ∧
      ((composeRun [⟨0, fun _ _ => 7, some [], some []⟩,
        ⟨0, fun _ _ => 7, some [], some []⟩] []).2.1).lookup 0 = some v :=
  claim_C3_theorem 0 _ [] (List.cons_ne_nil _ _)
    (by
      intro c hc
      rcases List.mem_cons.mp hc with rfl | hc
      · exact ⟨rfl, rfl, rfl⟩
      · rcases List.mem_cons.mp hc with rfl | hc
        · exact ⟨rfl, rfl, rfl⟩
        · simp at hc)
    rfl

/-- C4: with caching enabled, the dispatched decomposition is evaluated
at most once across any number of `decompose_once()` calls, every call
yields a sequence equal to the first, and a whole `decompose()` call
(all repetitions included) also evaluates it at most once. -/
theorem claim_C4_theorem (r : RepeatB) (k : Nat) (hc : r.caching = true) :
    (∀ o ∈ (onceIter k r).1, o = (decompose_once r).1) ∧
    (onceIter k r).2.2 ≤ 1 ∧ (r.decompose).2.2 ≤ 1 :=
  ⟨onceIter_outputs r hc k, onceIter_count_le r hc k,
    decomposeAux_count_le r hc r.n_repetitions.toNat⟩

/-- C4, witness: three `decompose_once()` calls on a caching `Repeat`
invoke the dispatched decomposer at most once and replay the first
output. -/
theorem claim_C4_witness :
    (∀ o ∈ (onceIter 3 (RepeatB.mk (.cirqGate 2) [4] 5 true none)).1,
      o = (decompose_once (RepeatB.mk (.cirqGate 2) [4] 5 true none)).1) ∧
    (onceIter 3 (RepeatB.mk (.cirqGate 2) [4] 5 true none)).2.2 ≤ 1 ∧
    ((RepeatB.mk (.cirqGate 2) [4] 5 true none).decompose).2.2 ≤ 1 :=
  claim_C4_theorem _ 3 rfl

/-- C5, counterexample to the claim as stated: because the strict
comparator zips the two decompositions, it truncates at the shorter
one — it returns `true` for a reference of length 1 and a candidate of
length 2 that agree on the first element, although the sequences do not
have the same length. -/
theorem claim_C5_counterexample :
    generator_equality [⟨0, [0]⟩] [⟨0, [0]⟩, ⟨1, [1]⟩] = some true ∧
    ([⟨0, [0]⟩, ⟨1, [1]⟩] : List Op).length ≠ ([⟨0, [0]⟩] : List Op).length :=
  ⟨by decide, by decide⟩

/-- C5 (amended): the strict comparator returns `true` iff the candidate
is nonempty (an empty candidate fails the entry assertion) and the two
sequences agree pointwise up to the length of the shorter one; equality
of lengths is not checked. -/
theorem claim_C5_theorem (circuit bloq : List Op) :
    generator_equality circuit bloq = some true ↔
      bloq ≠ [] ∧ ∀ i (h1 : i < bloq.length) (h2 : i < circuit.length),
        bloq.get ⟨i, h1⟩ = circuit.get ⟨i, h2⟩ := by
  cases bloq with
  | nil =>
    constructor
    · intro h
      exact absurd h (by simp [generator_equality])
    · intro h
      exact absurd rfl h.1
  | cons x t =>
    unfold generator_equality
    rw [show ((x :: t : List Op).isEmpty) = false from rfl]
    simp only [Bool.false_eq_true, if_false, Option.some.injEq]
    constructor
    · intro h
      exact ⟨List.cons_ne_nil x t, (zipWith_all_eq (x :: t) circuit).mp h⟩
    · intro h
      exact (zipWith_all_eq (x :: t) circuit).mpr h.2

/-- C5, witness: equal nonempty sequences compare `true` under the
amended characterisation. -/
theorem claim_C5_witness :
    generator_equality [⟨0, [0]⟩] [⟨0, [0]⟩] = some true :=
  (claim_C5_theorem [⟨0, [0]⟩] [⟨0, [0]⟩]).mpr
    ⟨List.cons_ne_nil _ _, fun i h1 _ => by
      rcases i with _ | i
      · rfl
      · exact absurd h1 (by simp only [List.length_singleton]; omega)⟩

/-- C6: constructing a `Repeat` around an object that is none of the
three recognised kinds fails immediately with a `TypeError`, while every
recognised kind constructs successfully (so the check happens once, at
construction; `decompose` on a constructed `Repeat` is total and never
re-checks). -/
theorem claim_C6_theorem :
    (∀ (x : Nat) (args : List Nat) (n : Int) (c : Bool),
      mkRepeat (.other x) args n c = .error
        "TypeError: subbloq is not a qualtran.Bloq, cirq.Gate or cirq.Circuit") ∧
    (∀ (s : SubInput) (args : List Nat) (n : Int) (c : Bool),
      s.isOther = false → ∃ r, mkRepeat s args n c = .ok r) := by
  constructor
  · intro x args n c
    rfl
  · intro s args n c hs
    cases s with
    | bloq cc => exact ⟨_, rfl⟩
    | gate g => exact ⟨_, rfl⟩
    | circuit m => exact ⟨_, rfl⟩
    | other x => exact absurd hs (by simp [SubInput.isOther])

/-- C6, witness: an unrecognised subbloq raises at construction, a cirq
gate constructs fine. -/
theorem claim_C6_witness :
    mkRepeat (.other 0) [] 1 false = .error
      "TypeError: subbloq is not a qualtran.Bloq, cirq.Gate or cirq.Circuit" ∧
    ∃ r, mkRepeat (.gate 0) [] 1 false = .ok r :=
  ⟨claim_C6_theorem.1 0 [] 1 false, claim_C6_theorem.2 (.gate 0) [] 1 false rfl⟩

/-- C7, counterexample to the claim as stated: `Repeat.__init__` never
checks `n_repetitions`, so constructing with `-1` succeeds instead of
raising a negative-repetition error. -/
theorem claim_C7_counterexample :
    mkRepeat (.gate 0) [] (-1) false =
      .ok (RepeatB.mk (.cirqGate 0) [] (-1) false none) := rfl

/-- C7 (amended): a negative repetition count is accepted silently at
construction, and decomposition then yields the empty sequence
(`range` of a negative int is empty). -/
theorem claim_C7_theorem (s : SubInput) (args : List Nat) (n : Int)
    (c : Bool) (hn : n < 0) (hs : s.isOther = false) :
    ∃ r, mkRepeat s args n c = .ok r ∧ (r.decompose).1 = [] := by
  have htn : n.toNat = 0 := Int.toNat_eq_zero.mpr (le_of_lt hn)
  cases s with
  | bloq cc => exact ⟨_, rfl, decompose_nonpos htn⟩
  | gate g => exact ⟨_, rfl, decompose_nonpos htn⟩
  | circuit m => exact ⟨_, rfl, decompose_nonpos htn⟩
  | other x => exact absurd hs (by simp [SubInput.isOther])

/-- C7, witness: `n_repetitions = -3` constructs and decomposes to the
empty sequence. -/
theorem claim_C7_witness :
    ∃ r, mkRepeat (.circuit [[⟨0, [0]⟩]]) [] (-3) true = .ok r ∧
      (r.decompose).1 = [] :=
  claim_C7_theorem _ _ _ _ (by decide) rfl

/-- C8: `decompose_from_registers` creates one iterator over the
subbloq decomposition before the repetition loop; the first `yield from`
exhausts it, so for `n_repetitions ≥ 2` the output still equals a single
copy of the sub-decomposition — repetitions 2..n contribute nothing. -/
theorem claim_C8_theorem (r : RepeatB) (sub : List Item)
    (h : 2 ≤ r.n_repetitions) :
    decompose_from_registers r sub = sub := by
  unfold decompose_from_registers
  obtain ⟨m, hm⟩ : ∃ m, r.n_repetitions.toNat = m + 1 := by
    refine ⟨r.n_repetitions.toNat - 1, ?_⟩
    omega
  rw [hm]
  unfold yieldFromRange
  rw [yieldFromRange_nil]
  simp

/-- C8, witness: three repetitions still yield the sub-decomposition
exactly once. -/
theorem claim_C8_witness :
    decompose_from_registers (RepeatB.mk (.cirqGate 1) [2] 3 false none)
      [Item.op ⟨1, [2]⟩] = [Item.op ⟨1, [2]⟩] :=
  claim_C8_theorem _ _ (by decide)

/-- C9: the constructors of `Deferred` and `Cached` discard the supplied
positional and keyword arguments (both slots are `None` afterwards), and
calling `compose()` before any external binding raises a `TypeError`
from unpacking `None` instead of invoking the generator (for `Cached`,
provided the tag is not already cached, which is the only possibility
before any binding has happened). -/
theorem claim_C9_theorem (gen : List Nat → List (String × Nat) → Nat)
    (args : List Nat) (kwargs : List (String × Nat)) (caching : Bool)
    (tag : Nat) (cache : List (Nat × Nat)) :
    ((mkDeferred gen args kwargs caching).args = none ∧
     (mkDeferred gen args kwargs caching).kwargs = none ∧
     (mkDeferred gen args kwargs caching).compose = .error
       "TypeError: argument after * must be an iterable, not NoneType") ∧
    ((mkCached tag gen args kwargs).args = none ∧
     (mkCached tag gen args kwargs).kwargs = none ∧
     (cache.lookup tag = none →
       (mkCached tag gen args kwargs).compose cache = (.error
         "TypeError: argument after * must be an iterable, not NoneType",
         cache, 0))) := by
  refine ⟨⟨rfl, rfl, rfl⟩, rfl, rfl, ?_⟩
  intro hmiss
  unfold CachedB.compose
  rw [show (mkCached tag gen args kwargs).tag = tag from rfl, hmiss]
  rfl

/-- C9, witness: composing unbound instances errors without invoking
the generator or touching the cache. -/
theorem claim_C9_witness :
    (mkDeferred (fun _ _ => 3) [1] [] false).compose = .error
      "TypeError: argument after * must be an iterable, not NoneType" ∧
    (mkCached 0 (fun _ _ => 3) [1] []).compose [] = (.error
      "TypeError: argument after * must be an iterable, not NoneType",
      [], 0) :=
  ⟨(claim_C9_theorem (fun _ _ => 3) [1] [] false 0 []).1.2.2,
   (claim_C9_theorem (fun _ _ => 3) [1] [] false 0 []).2.2.2 rfl⟩

/-- C10, counterexample to the claim as stated: the cited helper first
asserts that the candidate decomposition is non-empty, so with an empty
candidate it raises `AssertionError` (modelled as `none`) instead of
returning `true`. -/
theorem claim_C10_counterexample :
    generator_commutative_equality [⟨0, [0]⟩] [] = none := rfl

/-- C10 (amended): the matching loop itself accepts an empty candidate
against any reference without pulling a single reference element, and
sequences of different lengths can indeed compare commutative-equal
(shown for a length-2 reference against a length-1 candidate); but the
function's entry assertion rejects the fully empty candidate before the
loop runs. -/
theorem claim_C10_theorem :
    (∀ R : List Op, commLoop [] R [] = true) ∧
    (∀ R : List Op, generator_commutative_equality R [] = none) ∧
    generator_commutative_equality [⟨0, [0]⟩, ⟨1, [1]⟩] [⟨0, [0]⟩] =
      some true :=
  ⟨fun _ => rfl, fun _ => rfl, by decide⟩

end PyLIQTR
